import Mathlib

/-!
Shallow embedding of the chunking / chunk-ID / ingestion-preparation logic of
the `rag_api` package (files `file_processing.py` and `views.py`), together
with proofs of the specification's properties.

Text is modelled as `List Char` (Python strings are character sequences here).
The Python `while` loop of `simple_chunker` is not structurally terminating
(and indeed does not terminate for some degenerate configurations), so it is
embedded as a fuel-indexed step function: `chunkerLoopFuel ... fuel start acc`
returns `some result` exactly when the Python loop exits within `fuel`
iterations, and `none` when it is still running after `fuel` iterations.
Python `int` indices are modelled by `Int`, with Python slice semantics
(`text[a:b]`) modelled by `pySlice`.
-/

/-- Python slice `l[a:b]` (step 1) on a character list: negative indices count
from the end, and both bounds are clamped into `[0, length]`. -/
def pySlice (l : List Char) (a b : Int) : List Char :=
  let n : Int := l.length
  let a' : Int := if a < 0 then max (n + a) 0 else min a n
  let b' : Int := if b < 0 then max (n + b) 0 else min b n
  (l.take b'.toNat).drop a'.toNat

/-- One fuel-indexed run of the `while start < len(text)` loop of
`simple_chunker` (file_processing.py, lines 185-196): emit
`text[start : start + chunk_size]`, advance `start` by
`chunk_size - chunk_overlap`, clamp a negative `start` to 0, and stop when the
emitted window's end has reached the end of the text. -/
def chunkerLoopFuel (text : List Char) (chunk_size chunk_overlap : Int) :
    Nat → Int → List (List Char) → Option (List (List Char))
  | 0, _, _ => none
  | fuel + 1, start, acc =>
    if start < (text.length : Int) then
      let e := start + chunk_size
      let acc' := acc ++ [pySlice text start e]
      let s1 := start + (chunk_size - chunk_overlap)
      let s2 := if s1 < 0 then 0 else s1
      if (text.length : Int) ≤ e then some acc'
      else chunkerLoopFuel text chunk_size chunk_overlap fuel s2 acc'
    else some acc

/-- `simple_chunker(text, chunk_size, chunk_overlap)` from file_processing.py
(lines 178-196): empty text yields `[]` at once; otherwise run the loop with
the given amount of fuel. `some chunks` means the Python call returns
`chunks`; `none` means the loop has not yet exited after `fuel` iterations. -/
def simple_chunker (text : List Char) (chunk_size chunk_overlap : Int)
    (fuel : Nat) : Option (List (List Char)) :=
  if text = [] then some [] else
    chunkerLoopFuel text chunk_size chunk_overlap fuel 0 []

/-- Natural-number-indexed version of the loop, used for reasoning; it agrees
with `chunkerLoopFuel` whenever `chunk_overlap < chunk_size`
(`chunkerLoopFuel_eq_nat`). -/
def chunkerLoopNat (text : List Char) (csz covl : Nat) :
    Nat → Nat → List (List Char) → Option (List (List Char))
  | 0, _, _ => none
  | fuel + 1, start, acc =>
    if start < text.length then
      let acc' := acc ++ [(text.drop start).take csz]
      if text.length ≤ start + csz then some acc'
      else chunkerLoopNat text csz covl fuel (start + (csz - covl)) acc'
    else some acc

theorem pySlice_natCast (l : List Char) (s c : Nat) :
    pySlice l (s : Int) ((s : Int) + (c : Int)) = (l.drop s).take c := by
  unfold pySlice
  have hs : ¬((s : Int) < 0) := by omega
  have hsc : ¬((s : Int) + (c : Int) < 0) := by omega
  simp only [if_neg hs, if_neg hsc]
  have ha : (min (s : Int) (l.length : Int)).toNat = min s l.length := by omega
  have hb : (min ((s : Int) + (c : Int)) (l.length : Int)).toNat
      = min (s + c) l.length := by omega
  rw [ha, hb, List.take_drop]
  rcases le_or_lt (s + c) l.length with h1 | h1
  · rw [min_eq_left h1, min_eq_left (by omega : s ≤ l.length)]
  · rw [min_eq_right (by omega : l.length ≤ s + c), List.take_length,
      List.take_of_length_le (by omega)]
    rcases le_or_lt s l.length with h2 | h2
    · rw [min_eq_left h2]
    · rw [min_eq_right (by omega : l.length ≤ s)]
      rw [List.drop_length, List.drop_of_length_le (by omega)]

/-- For a valid configuration (`chunk_overlap < chunk_size`), the faithful
`Int`-indexed loop coincides with the natural-number-indexed loop: the
negative-`start` clamp never fires and all indices stay non-negative. -/
theorem chunkerLoopFuel_eq_nat (text : List Char) (csz covl : Nat)
    (hcv : covl < csz) :
    ∀ (fuel : Nat) (start : Nat) (acc : List (List Char)),
      chunkerLoopFuel text (csz : Int) (covl : Int) fuel (start : Int) acc
        = chunkerLoopNat text csz covl fuel start acc := by
  intro fuel
  induction fuel with
  | zero => intro start acc; rfl
  | succ fuel ih =>
    intro start acc
    simp only [chunkerLoopFuel, chunkerLoopNat]
    have hlen : ((start : Int) < (text.length : Int)) ↔ start < text.length := by
      exact_mod_cast Iff.rfl
    rcases Classical.em (start < text.length) with h | h
    · rw [if_pos (hlen.mpr h), if_pos h, pySlice_natCast]
      have hend : ((text.length : Int) ≤ (start : Int) + (csz : Int))
          ↔ text.length ≤ start + csz := by exact_mod_cast Iff.rfl
      rcases Classical.em (text.length ≤ start + csz) with he | he
      · rw [if_pos (hend.mpr he), if_pos he]
      · rw [if_neg (fun hx => he (hend.mp hx)), if_neg he]
        have hpos : ¬((start : Int) + ((csz : Int) - (covl : Int)) < 0) := by omega
        rw [if_neg hpos]
        have hcast : (start : Int) + ((csz : Int) - (covl : Int))
            = ((start + (csz - covl) : Nat) : Int) := by push_cast; omega
        rw [hcast, ih]
    · rw [if_neg (fun hx => h (hlen.mp hx)), if_neg h]

example : simple_chunker "abc".data 10 0 5 = some ["abc".data] := by decide
example : simple_chunker [] 10 0 5 = some [] := by decide
example : simple_chunker "abcdef".data 3 1 5
    = some ["abc".data, "cde".data, "ef".data] := by decide

theorem shift_eq (start d i : Nat) : start + (i + 1) * d = start + d + i * d := by
  ring

theorem range_map_succ {α : Type} (f : Nat → α) (n : Nat) :
    (List.range (n + 1)).map f = f 0 :: (List.range n).map (fun i => f (i + 1)) := by
  rw [List.range_succ_eq_map, List.map_cons, List.map_map]
  rfl

theorem take_drop_overlap (text : List Char) (start csz covl : Nat)
    (hcv : covl ≤ csz) :
    ((text.drop start).take csz).drop covl
      = (text.drop (start + covl)).take (csz - covl) := by
  have h : csz = covl + (csz - covl) := by omega
  conv_lhs => rw [h]
  rw [← List.take_drop, List.drop_drop]

/-- Full characterization of a terminating run of the chunker loop for a
valid configuration: the emitted chunks are exactly the windows of width
`csz` whose start offsets advance by `csz - covl` from `start`; all but the
last window end strictly before the end of the text, the last window's end
reaches it, and every window starts strictly inside the text. -/
theorem chunkerLoopNat_spec (text : List Char) (csz covl : Nat)
    (hcv : covl < csz) :
    ∀ (fuel start : Nat) (acc cs : List (List Char)), start < text.length →
      chunkerLoopNat text csz covl fuel start acc = some cs →
      ∃ n : Nat, 0 < n
        ∧ cs = acc ++ (List.range n).map
            (fun i => (text.drop (start + i * (csz - covl))).take csz)
        ∧ (∀ i, i + 1 < n → start + i * (csz - covl) + csz < text.length)
        ∧ text.length ≤ start + (n - 1) * (csz - covl) + csz
        ∧ (∀ i, i < n → start + i * (csz - covl) < text.length) := by
  intro fuel
  induction fuel with
  | zero =>
    intro start acc cs h hrun
    simp [chunkerLoopNat] at hrun
  | succ fuel ih =>
    intro start acc cs h hrun
    simp only [chunkerLoopNat, if_pos h] at hrun
    by_cases hend : text.length ≤ start + csz
    · rw [if_pos hend] at hrun
      refine ⟨1, Nat.one_pos, ?_, ?_, ?_, ?_⟩
      · simpa [List.range_succ] using hrun.symm
      · intro i hi; omega
      · simpa using hend
      · intro i hi
        have : i = 0 := by omega
        simpa [this] using h
    · rw [if_neg hend] at hrun
      have hlt : start + (csz - covl) < text.length := by omega
      obtain ⟨n, hn, hcs, hmid, hlast, hstarts⟩ := ih _ _ _ hlt hrun
      obtain ⟨m, rfl⟩ : ∃ m, n = m + 1 := ⟨n - 1, by omega⟩
      refine ⟨m + 2, by omega, ?_, ?_, ?_, ?_⟩
      · rw [hcs, List.append_assoc]
        congr 1
        conv_rhs => rw [range_map_succ]
        rw [List.singleton_append]
        congr 1
        · simp
        · refine List.map_congr_left fun i _ => ?_
          rw [shift_eq]
      · intro i hi
        match i with
        | 0 => simpa using (by omega : start + csz < text.length)
        | j + 1 =>
          rw [shift_eq]
          exact hmid j (by omega)
      · have : m + 2 - 1 = m + 1 := by omega
        rw [this, shift_eq]
        exact hlast
      · intro i hi
        match i with
        | 0 => simpa using h
        | j + 1 =>
          rw [shift_eq]
          exact hstarts j (by omega)

/-- Each chunk after the first, stripped of its first `covl` characters and
concatenated, reconstructs the text from position `start + covl` on. -/
theorem chunkerLoopNat_glue (text : List Char) (csz covl : Nat)
    (hcv : covl < csz) :
    ∀ (fuel start : Nat) (acc cs : List (List Char)), start < text.length →
      chunkerLoopNat text csz covl fuel start acc = some cs →
      ∃ tail, tail ≠ [] ∧ cs = acc ++ tail
        ∧ (tail.map (fun c => c.drop covl)).flatten = text.drop (start + covl) := by
  intro fuel
  induction fuel with
  | zero =>
    intro start acc cs h hrun
    simp [chunkerLoopNat] at hrun
  | succ fuel ih =>
    intro start acc cs h hrun
    simp only [chunkerLoopNat, if_pos h] at hrun
    by_cases hend : text.length ≤ start + csz
    · rw [if_pos hend] at hrun
      refine ⟨[(text.drop start).take csz], by simp, by simpa using hrun.symm, ?_⟩
      simp only [List.map_cons, List.map_nil, List.flatten_cons, List.flatten_nil,
        List.append_nil]
      rw [take_drop_overlap text start csz covl (le_of_lt hcv)]
      exact List.take_of_length_le (by simp; omega)
    · rw [if_neg hend] at hrun
      have hlt : start + (csz - covl) < text.length := by omega
      obtain ⟨tail, hne, hcs, hjoin⟩ := ih _ _ _ hlt hrun
      refine ⟨(text.drop start).take csz :: tail, by simp, ?_, ?_⟩
      · rw [hcs, List.append_assoc, List.singleton_append]
      · simp only [List.map_cons, List.flatten_cons]
        rw [take_drop_overlap text start csz covl (le_of_lt hcv), hjoin]
        have h1 : start + (csz - covl) + covl = start + covl + (csz - covl) := by
          omega
        have h2 : List.drop (start + covl + (csz - covl)) text
            = (List.drop (start + covl) text).drop (csz - covl) :=
          (List.drop_drop _ _ _).symm
        rw [h1, h2, List.take_append_drop]

/-- At the degenerate configuration `chunk_size = chunk_overlap = 10` on a
100-character text the loop never exits: `start` stays at 0 forever, the
window end stays at 10 < 100, and the negative-`start` clamp never helps. -/
theorem chunkerLoopFuel_stuck :
    ∀ (fuel : Nat) (acc : List (List Char)),
      chunkerLoopFuel (List.replicate 100 'x') 10 10 fuel 0 acc = none := by
  intro fuel
  induction fuel with
  | zero => intro acc; rfl
  | succ fuel ih =>
    intro acc
    simp only [chunkerLoopFuel, List.length_replicate]
    rw [if_pos (by norm_num), if_neg (by norm_num)]
    norm_num
    exact ih _

/-- C1: the spec demands that `simple_chunker` terminate for every positive
`chunk_size` and non-negative `chunk_overlap`, naming
`chunk('x'*100, 10, 10)` as a test. The code does not satisfy this: at that
very input the loop never exits, whatever the iteration budget — the
`start < 0` clamp prevents `start` from going negative but not the loop from
spinning with an unmoved `start`. -/
theorem simple_chunker_c1_nontermination :
    ∀ fuel : Nat, simple_chunker (List.replicate 100 'x') 10 10 fuel = none := by
  intro fuel
  rw [simple_chunker, if_neg (by simp)]
  exact chunkerLoopFuel_stuck fuel []

/-- Reassembly operator of the round-trip property (claim C2): keep the first
chunk whole and strip the first `covl` characters of every later chunk, then
concatenate. -/
def reassemble (covl : Nat) : List (List Char) → List Char
  | [] => []
  | c :: rest => c ++ (rest.map (fun d => d.drop covl)).flatten

/-- C2: for every non-empty text and `0 ≤ chunk_overlap < chunk_size`,
whenever `simple_chunker` returns a chunk list, concatenating the first chunk
with every subsequent chunk stripped of its first `chunk_overlap` characters
reconstructs the text exactly. -/
theorem simple_chunker_round_trip (text : List Char) (csz covl fuel : Nat)
    (cs : List (List Char)) (hne : text ≠ []) (hcv : covl < csz)
    (h : simple_chunker text (csz : Int) (covl : Int) fuel = some cs) :
    reassemble covl cs = text := by
  have hlen : 0 < text.length := List.length_pos.mpr hne
  have h0 : ((0 : Nat) : Int) = (0 : Int) := by norm_num
  rw [simple_chunker, if_neg hne, ← h0,
    chunkerLoopFuel_eq_nat text csz covl hcv fuel 0 []] at h
  cases fuel with
  | zero => simp [chunkerLoopNat] at h
  | succ fuel =>
    simp only [chunkerLoopNat, if_pos hlen] at h
    by_cases hend : text.length ≤ 0 + csz
    · rw [if_pos hend] at h
      have hcs : cs = [(text.drop 0).take csz] := by simpa using h.symm
      rw [hcs]
      show (text.drop 0).take csz ++ ([].map (fun d => List.drop covl d)).flatten
          = text
      simp only [List.map_nil, List.flatten_nil, List.append_nil,
        List.drop_zero]
      exact List.take_of_length_le (by omega)
    · rw [if_neg hend] at h
      obtain ⟨tail, htne, hcs, hjoin⟩ :=
        chunkerLoopNat_glue text csz covl hcv fuel (0 + (csz - covl))
          ([] ++ [(text.drop 0).take csz]) cs (by omega) h
      have hix : 0 + (csz - covl) + covl = csz := by omega
      rw [hix] at hjoin
      rw [hcs]
      show reassemble covl ((text.drop 0).take csz :: tail) = text
      show (text.drop 0).take csz ++ (tail.map (fun d => List.drop covl d)).flatten
          = text
      rw [hjoin, List.drop_zero, List.take_append_drop]

theorem simple_chunker_round_trip_witness :
    reassemble 1 ["abc".data, "cde".data, "ef".data] = "abcdef".data :=
  simple_chunker_round_trip "abcdef".data 3 1 5 _ (by decide) (by decide)
    (by decide)

/-- C7: the empty text yields the empty chunk list for every configuration,
and `simple_chunker("abc", 10, 0)` yields the single chunk `["abc"]` as soon
as the loop is allowed at least one iteration. -/
theorem simple_chunker_boundary :
    (∀ (csz covl : Int) (fuel : Nat), simple_chunker [] csz covl fuel = some [])
      ∧ ∀ fuel : Nat,
          simple_chunker "abc".data 10 0 (fuel + 1) = some ["abc".data] := by
  constructor
  · intro csz covl fuel; rfl
  · intro fuel
    rw [simple_chunker, if_neg (by decide)]
    simp only [chunkerLoopFuel]
    rw [if_pos (by decide), if_pos (by decide)]
    decide

theorem getD_map_range {α : Type} (dflt : α) (f : Nat → α) (n i : Nat)
    (hi : i < n) :
    ((List.range n).map f).getD i dflt = f i := by
  rw [List.getD_eq_getElem?_getD, List.getElem?_map, List.getElem?_range hi]
  rfl

/-- Pure arithmetic of window coverage: when windows of width `csz` start at
multiples of a positive step `d ≤ csz` and the window at `(n-1)*d` reaches the
end, every position `j < len` falls inside some window, measured with the
window's clipped length `min csz (len - i*d)`. -/
theorem window_cover (d csz n len j : Nat) (hd : 0 < d) (hdc : d ≤ csz)
    (hj : j < len) (hn : 0 < n) (hlast : len ≤ (n - 1) * d + csz) :
    ∃ i, i < n ∧ i * d ≤ j ∧ j < i * d + min csz (len - i * d) := by
  by_cases hcase : j < (n - 1) * d
  · refine ⟨j / d, ?_, Nat.div_mul_le_self j d, ?_⟩
    · have h1 : d * (j / d) ≤ j := by
        rw [Nat.mul_comm]; exact Nat.div_mul_le_self j d
      have h2 : d * (j / d) < d * (n - 1) := by
        calc d * (j / d) ≤ j := h1
        _ < (n - 1) * d := hcase
        _ = d * (n - 1) := Nat.mul_comm _ _
      exact lt_of_lt_of_le (lt_of_mul_lt_mul_left h2 (Nat.zero_le d))
        (Nat.sub_le n 1)
    · have h1 : j / d * d ≤ j := Nat.div_mul_le_self j d
      have h2 : j < j / d * d + d := by
        have hdm : d * (j / d) + j % d = j := Nat.div_add_mod j d
        have hmod : j % d < d := Nat.mod_lt j hd
        calc j = d * (j / d) + j % d := hdm.symm
        _ < d * (j / d) + d := Nat.add_lt_add_left hmod _
        _ = j / d * d + d := by rw [Nat.mul_comm]
      rcases le_total csz (len - j / d * d) with hmin | hmin
      · rw [min_eq_left hmin]
        exact lt_of_lt_of_le h2 (Nat.add_le_add_left hdc _)
      · rw [min_eq_right hmin,
          Nat.add_sub_cancel' (le_trans h1 (le_of_lt hj))]
        exact hj
  · refine ⟨n - 1, by omega, le_of_not_lt hcase, ?_⟩
    rcases le_total csz (len - (n - 1) * d) with hmin | hmin
    · rw [min_eq_left hmin]
      exact lt_of_lt_of_le hj hlast
    · rw [min_eq_right hmin,
        Nat.add_sub_cancel' (le_trans (le_of_not_lt hcase) (le_of_lt hj))]
      exact hj

/-- Characterization of a full `simple_chunker` run started at offset 0:
brings `chunkerLoopNat_spec` into the form used by the claims. -/
theorem simple_chunker_windows (text : List Char) (csz covl fuel : Nat)
    (cs : List (List Char)) (hne : text ≠ []) (hcv : covl < csz)
    (h : simple_chunker text (csz : Int) (covl : Int) fuel = some cs) :
    ∃ n : Nat, 0 < n
      ∧ cs = (List.range n).map
          (fun i => (text.drop (i * (csz - covl))).take csz)
      ∧ (∀ i, i + 1 < n → i * (csz - covl) + csz < text.length)
      ∧ text.length ≤ (n - 1) * (csz - covl) + csz
      ∧ (∀ i, i < n → i * (csz - covl) < text.length) := by
  have hlen : 0 < text.length := List.length_pos.mpr hne
  have h0 : ((0 : Nat) : Int) = (0 : Int) := by norm_num
  rw [simple_chunker, if_neg hne, ← h0,
    chunkerLoopFuel_eq_nat text csz covl hcv fuel 0 []] at h
  obtain ⟨n, hn, hcs, hmid, hlast, hstarts⟩ :=
    chunkerLoopNat_spec text csz covl hcv fuel 0 [] cs hlen h
  simp only [List.nil_append, Nat.zero_add] at hcs hmid hlast hstarts
  exact ⟨n, hn, hcs, hmid, hlast, hstarts⟩

/-- C3: every character index of the text is covered by at least one emitted
chunk (each chunk being the window of width `chunk_size` at its start
offset), the final chunk's end offset equals the text length, and no chunk
starts at or beyond the text's end. -/
theorem simple_chunker_coverage (text : List Char) (csz covl fuel : Nat)
    (cs : List (List Char)) (hne : text ≠ []) (hcv : covl < csz)
    (h : simple_chunker text (csz : Int) (covl : Int) fuel = some cs) :
    (∀ j, j < text.length → ∃ i, i < cs.length
        ∧ cs.getD i [] = (text.drop (i * (csz - covl))).take csz
        ∧ i * (csz - covl) ≤ j
        ∧ j < i * (csz - covl) + (cs.getD i []).length)
      ∧ (cs.length - 1) * (csz - covl)
          + (cs.getD (cs.length - 1) []).length = text.length
      ∧ (∀ i, i < cs.length → i * (csz - covl) < text.length) := by
  obtain ⟨n, hn, hcs, hmid, hlast, hstarts⟩ :=
    simple_chunker_windows text csz covl fuel cs hne hcv h
  have hlencs : cs.length = n := by rw [hcs]; simp
  have hgetD : ∀ i, i < n →
      cs.getD i [] = (text.drop (i * (csz - covl))).take csz := by
    intro i hi
    rw [hcs]; exact getD_map_range [] _ n i hi
  have hchunklen : ∀ i, i < n →
      (cs.getD i []).length = min csz (text.length - i * (csz - covl)) := by
    intro i hi
    rw [hgetD i hi, List.length_take, List.length_drop]
  refine ⟨?_, ?_, ?_⟩
  · intro j hj
    obtain ⟨i, hi, hle, hlt⟩ :=
      window_cover (csz - covl) csz n text.length j (by omega) (by omega)
        hj hn hlast
    refine ⟨i, by omega, hgetD i hi, hle, ?_⟩
    rw [hchunklen i hi]
    exact hlt
  · rw [hlencs, hchunklen (n - 1) (by omega)]
    have hstart_last : (n - 1) * (csz - covl) < text.length :=
      hstarts (n - 1) (by omega)
    rw [min_eq_right (Nat.sub_le_iff_le_add.mpr
      (by rw [Nat.add_comm]; exact hlast))]
    exact Nat.add_sub_cancel' (le_of_lt hstart_last)
  · intro i hi
    exact hstarts i (by omega)

theorem simple_chunker_coverage_witness :
    ((["abc".data, "cde".data, "ef".data] : List (List Char)).length - 1)
        * (3 - 1)
      + ((["abc".data, "cde".data, "ef".data] : List (List Char)).getD
          ((["abc".data, "cde".data, "ef".data] : List (List Char)).length - 1)
          []).length
      = ("abcdef".data).length :=
  (simple_chunker_coverage "abcdef".data 3 1 5
    ["abc".data, "cde".data, "ef".data] (by decide) (by decide)
    (by decide)).2.1

/-- C9: every chunk of a terminating run is non-empty and at most
`chunk_size` characters long, every chunk except possibly the last is exactly
`chunk_size` characters long, and the `i`-th chunk is the window starting at
offset `i * (chunk_size - chunk_overlap)` — so consecutive start offsets
differ by exactly `chunk_size - chunk_overlap`. -/
theorem simple_chunker_invariants (text : List Char) (csz covl fuel : Nat)
    (cs : List (List Char)) (hne : text ≠ []) (hcv : covl < csz)
    (h : simple_chunker text (csz : Int) (covl : Int) fuel = some cs) :
    (∀ i, i < cs.length →
        cs.getD i [] ≠ []
        ∧ (cs.getD i []).length ≤ csz
        ∧ cs.getD i [] = (text.drop (i * (csz - covl))).take csz)
      ∧ (∀ i, i + 1 < cs.length → (cs.getD i []).length = csz) := by
  obtain ⟨n, hn, hcs, hmid, hlast, hstarts⟩ :=
    simple_chunker_windows text csz covl fuel cs hne hcv h
  have hlencs : cs.length = n := by rw [hcs]; simp
  have hgetD : ∀ i, i < n →
      cs.getD i [] = (text.drop (i * (csz - covl))).take csz := by
    intro i hi
    rw [hcs]; exact getD_map_range [] _ n i hi
  have hchunklen : ∀ i, i < n →
      (cs.getD i []).length = min csz (text.length - i * (csz - covl)) := by
    intro i hi
    rw [hgetD i hi, List.length_take, List.length_drop]
  constructor
  · intro i hi
    rw [hlencs] at hi
    refine ⟨?_, ?_, hgetD i hi⟩
    · rw [← List.length_pos, hchunklen i hi]
      exact lt_min_iff.mpr ⟨by omega, Nat.sub_pos_of_lt (hstarts i hi)⟩
    · rw [hchunklen i hi]
      exact min_le_left _ _
  · intro i hi
    rw [hlencs] at hi
    rw [hchunklen i (by omega)]
    apply min_eq_left
    apply Nat.le_sub_of_add_le
    calc csz + i * (csz - covl) = i * (csz - covl) + csz := Nat.add_comm _ _
    _ ≤ text.length := le_of_lt (hmid i hi)

theorem simple_chunker_invariants_witness :
    (["abc".data, "cde".data, "ef".data] : List (List Char)).getD 0 []
        = (("abcdef".data).drop (0 * (3 - 1))).take 3 :=
  ((simple_chunker_invariants "abcdef".data 3 1 5
    ["abc".data, "cde".data, "ef".data] (by decide) (by decide)
    (by decide)).1 0 (by decide)).2.2

/-- C6: on any text of length 3200 with `chunk_size=1500`,
`chunk_overlap=150`, every terminating run returns exactly the three windows
at offsets 0, 1350, 2700 (the last covering `[2700, 3200)`, of length 500),
and the loop indeed stops within three iterations because the third window's
end (4200, clipped to 3200) reaches the text length. -/
theorem simple_chunker_example_3200 (text : List Char)
    (hlen : text.length = 3200) :
    (∀ (fuel : Nat) (cs : List (List Char)),
        simple_chunker text 1500 150 fuel = some cs →
        cs = [text.take 1500, (text.drop 1350).take 1500, text.drop 2700])
      ∧ simple_chunker text 1500 150 3
          = some [text.take 1500, (text.drop 1350).take 1500, text.drop 2700]
      ∧ (text.drop 2700).length = 500 := by
  have hne : text ≠ [] := by
    intro hx
    rw [hx] at hlen
    simp at hlen
  have c1 : (1500 : Int) = ((1500 : Nat) : Int) := by norm_num
  have c2 : (150 : Int) = ((150 : Nat) : Int) := by norm_num
  have h2700 : (text.drop 2700).take 1500 = text.drop 2700 :=
    List.take_of_length_le (by rw [List.length_drop, hlen]; norm_num)
  refine ⟨?_, ?_, ?_⟩
  · intro fuel cs h
    rw [c1, c2] at h
    obtain ⟨n, hn, hcs, hmid, hlast, hstarts⟩ :=
      simple_chunker_windows text 1500 150 fuel cs hne (by norm_num) h
    rw [hlen] at hlast
    have hlaststart := hstarts (n - 1) (by omega)
    rw [hlen] at hlaststart
    norm_num at hlast hlaststart
    have hn3 : n = 3 := by omega
    subst hn3
    rw [hcs]
    norm_num [List.range_succ, h2700]
  · have h0 : ((0 : Nat) : Int) = (0 : Int) := by norm_num
    rw [simple_chunker, if_neg hne, c1, c2, ← h0,
      chunkerLoopFuel_eq_nat text 1500 150 (by norm_num) 3 0 []]
    simp only [chunkerLoopNat]
    rw [if_pos (by omega), if_neg (by omega)]
    norm_num
    rw [if_pos (by omega), if_neg (by omega)]
    rw [if_pos (by omega), if_pos (by omega)]
    rw [h2700]
  · rw [List.length_drop, hlen]

theorem simple_chunker_example_3200_witness :
    simple_chunker (List.replicate 3200 'x') 1500 150 3
      = some [(List.replicate 3200 'x').take 1500,
          ((List.replicate 3200 'x').drop 1350).take 1500,
          (List.replicate 3200 'x').drop 2700] :=
  (simple_chunker_example_3200 (List.replicate 3200 'x')
    (by rw [List.length_replicate])).2.1

theorem digitChar_isDigit_of_lt10 :
    ∀ m : Nat, m < 10 → (Nat.digitChar m).isDigit = true := by decide

theorem digitChar_sub48 :
    ∀ m : Nat, m < 10 → (Nat.digitChar m).toNat - 48 = m := by decide

theorem toDigitsCore_shift :
    ∀ (fuel n : Nat) (ds : List Char), n < fuel →
      Nat.toDigitsCore 10 fuel n ds = Nat.toDigitsCore 10 fuel n [] ++ ds := by
  intro fuel
  induction fuel with
  | zero => intro n ds h; omega
  | succ fuel ih =>
    intro n ds h
    simp only [Nat.toDigitsCore]
    by_cases h10 : n / 10 = 0
    · rw [if_pos h10, if_pos h10]
      simp
    · rw [if_neg h10, if_neg h10]
      have hlt : n / 10 < fuel := by omega
      rw [ih _ _ hlt, ih _ [Nat.digitChar (n % 10)] hlt, List.append_assoc]
      simp

theorem toDigitsCore_fuel :
    ∀ (n f1 f2 : Nat), n < f1 → n < f2 →
      Nat.toDigitsCore 10 f1 n [] = Nat.toDigitsCore 10 f2 n [] := by
  intro n
  induction n using Nat.strong_induction_on with
  | _ n ih =>
    intro f1 f2 h1 h2
    cases f1 with
    | zero => omega
    | succ f1 =>
      cases f2 with
      | zero => omega
      | succ f2 =>
        simp only [Nat.toDigitsCore]
        by_cases h10 : n / 10 = 0
        · rw [if_pos h10, if_pos h10]
        · rw [if_neg h10, if_neg h10]
          rw [toDigitsCore_shift f1 _ _ (by omega),
            toDigitsCore_shift f2 _ _ (by omega)]
          rw [ih (n / 10) (by omega) f1 f2 (by omega) (by omega)]

/-- Value of a decimal digit string, the left inverse used to show decimal
representations are injective. -/
def evalDigits (l : List Char) : Nat :=
  l.foldl (fun a c => 10 * a + (c.toNat - 48)) 0

theorem evalDigits_append_digit (l : List Char) (d : Char) :
    evalDigits (l ++ [d]) = 10 * evalDigits l + (d.toNat - 48) := by
  simp [evalDigits, List.foldl_append]

theorem evalDigits_toDigits (n : Nat) :
    evalDigits (Nat.toDigits 10 n) = n := by
  induction n using Nat.strong_induction_on with
  | _ n ih =>
    have hdef : Nat.toDigits 10 n = Nat.toDigitsCore 10 (n + 1) n [] := rfl
    rw [hdef]
    simp only [Nat.toDigitsCore]
    by_cases h10 : n / 10 = 0
    · rw [if_pos h10]
      have he : evalDigits [Nat.digitChar (n % 10)]
          = (Nat.digitChar (n % 10)).toNat - 48 := by
        simp [evalDigits]
      rw [he, digitChar_sub48 (n % 10) (by omega)]
      omega
    · rw [if_neg h10]
      rw [toDigitsCore_shift n (n / 10) _ (by omega)]
      rw [toDigitsCore_fuel (n / 10) n (n / 10 + 1) (by omega) (by omega)]
      have hfold : Nat.toDigitsCore 10 (n / 10 + 1) (n / 10) []
          = Nat.toDigits 10 (n / 10) := rfl
      rw [hfold, evalDigits_append_digit, ih (n / 10) (by omega),
        digitChar_sub48 (n % 10) (by omega)]
      omega

theorem toDigits_injective (a b : Nat)
    (h : Nat.toDigits 10 a = Nat.toDigits 10 b) : a = b := by
  rw [← evalDigits_toDigits a, ← evalDigits_toDigits b, h]

theorem Nat_repr_injective (a b : Nat) (h : Nat.repr a = Nat.repr b) :
    a = b :=
  toDigits_injective a b (congrArg String.data h)

theorem toDigitsCore_digits :
    ∀ (fuel n : Nat) (ds : List Char),
      (∀ c ∈ ds, c.isDigit = true) →
      ∀ c ∈ Nat.toDigitsCore 10 fuel n ds, c.isDigit = true := by
  intro fuel
  induction fuel with
  | zero => intro n ds hds; exact hds
  | succ fuel ih =>
    intro n ds hds
    simp only [Nat.toDigitsCore]
    by_cases h10 : n / 10 = 0
    · rw [if_pos h10]
      intro c hc
      rcases List.mem_cons.mp hc with hc | hc
      · rw [hc]; exact digitChar_isDigit_of_lt10 _ (by omega)
      · exact hds c hc
    · rw [if_neg h10]
      apply ih
      intro c hc
      rcases List.mem_cons.mp hc with hc | hc
      · rw [hc]; exact digitChar_isDigit_of_lt10 _ (by omega)
      · exact hds c hc

theorem repr_chars_isDigit (n : Nat) :
    ∀ c ∈ (Nat.repr n).data, c.isDigit = true := by
  have hdef : (Nat.repr n).data = Nat.toDigitsCore 10 (n + 1) n [] := rfl
  rw [hdef]
  exact toDigitsCore_digits (n + 1) n [] (by simp)

/-- Split a character sequence at `'/'` separators (the component split
underlying `pathlib.Path` parsing on POSIX paths). -/
def splitOnSlash : List Char → List (List Char)
  | [] => [[]]
  | c :: cs =>
    let rest := splitOnSlash cs
    if c = '/' then [] :: rest
    else
      match rest with
      | [] => [[c]]
      | r :: rs => (c :: r) :: rs

/-- `Path(filename).name`: the last path component, with empty and `"."`
components dropped (as `pathlib` does when parsing), or empty if none. -/
def pathNameData (filename : List Char) : List Char :=
  ((splitOnSlash filename).filter fun p => !(p.isEmpty || p == ['.'])).getLastD []

/-- Index of the last `'.'` in a character sequence, if any
(Python `str.rfind('.')` restricted to a found result). -/
def lastDotIndex : List Char → Option Nat
  | [] => none
  | c :: cs =>
    match lastDotIndex cs with
    | some i => some (i + 1)
    | none => if c = '.' then some 0 else none

/-- `Path(filename).stem` (file_processing.py line 203): the name without its
final extension; a leading dot or a trailing dot is not an extension. -/
def pathStemData (filename : List Char) : List Char :=
  let nm := pathNameData filename
  match lastDotIndex nm with
  | none => nm
  | some i => if 0 < i ∧ i < nm.length - 1 then nm.take i else nm

/-- `base_name_safe` (file_processing.py line 205): every character of the
stem that is not alphanumeric is replaced by `'_'`, and the result is
truncated to at most 50 characters. `Char.isAlphanum` embeds Python
`str.isalnum` (they agree on ASCII). -/
def base_name_safeData (filename : List Char) : List Char :=
  ((pathStemData filename).map fun c => if c.isAlphanum then c else '_').take 50

/-- `generate_chunk_ids(filename, num_chunks)` (file_processing.py lines
199-206). The wall-clock read `int(time.time())` is abstracted as the
`timestamp` parameter, captured once per call; Python `str` of a
non-negative int is decimal representation (`Nat.repr`). -/
def generate_chunk_ids (filename : List Char) (timestamp : Nat)
    (num_chunks : Nat) : List String :=
  (List.range num_chunks).map fun i =>
    (base_name_safeData filename).asString ++ "_" ++ Nat.repr timestamp
      ++ "_chunk_" ++ Nat.repr i

example : base_name_safeData "My Report.pdf".data = "My_Report".data := by decide
example : base_name_safeData "weird/name!.txt".data = "name_".data := by decide
example : pathStemData "archive.tar.gz".data = "archive.tar".data := by decide
example : pathStemData ".bashrc".data = ".bashrc".data := by decide

theorem id_assemble (pre preU t r s : String) (hpre : pre ++ "_" = preU)
    (hcr : "_chunk_" ++ r = s) :
    pre ++ "_" ++ t ++ "_chunk_" ++ r = preU ++ (t ++ s) := by
  rw [← hpre, ← hcr, String.append_assoc, String.append_assoc]

/-- C4: `generate_chunk_ids` returns exactly `num_chunks` strings; the `i`-th
is `"{base_name}_{timestamp}_chunk_{i}"` with base name and timestamp shared
by the whole call (both captured once, before the loop); consequently the IDs
of one call are pairwise distinct. In particular, on `"My Report.pdf"` with
3 chunks the IDs all start with `"My_Report_"`, share the timestamp segment,
and end with `"_chunk_0"`, `"_chunk_1"`, `"_chunk_2"` respectively. -/
theorem generate_chunk_ids_spec (filename : List Char) (ts n : Nat) :
    (generate_chunk_ids filename ts n).length = n
      ∧ (∀ i, i < n → (generate_chunk_ids filename ts n).getD i ""
          = (base_name_safeData filename).asString ++ "_" ++ Nat.repr ts
            ++ "_chunk_" ++ Nat.repr i)
      ∧ (∀ i j, i < n → j < n → i ≠ j →
          (generate_chunk_ids filename ts n).getD i ""
            ≠ (generate_chunk_ids filename ts n).getD j "")
      ∧ generate_chunk_ids "My Report.pdf".data ts 3
          = ["My_Report_" ++ (Nat.repr ts ++ "_chunk_0"),
             "My_Report_" ++ (Nat.repr ts ++ "_chunk_1"),
             "My_Report_" ++ (Nat.repr ts ++ "_chunk_2")] := by
  refine ⟨by simp [generate_chunk_ids], ?_, ?_, ?_⟩
  · intro i hi
    simp only [generate_chunk_ids]
    exact getD_map_range "" _ n i hi
  · intro i j hi hj hij heq
    simp only [generate_chunk_ids] at heq
    rw [getD_map_range "" _ n i hi, getD_map_range "" _ n j hj] at heq
    apply hij
    have hdata := congrArg String.data heq
    simp only [String.data_append, List.append_assoc] at hdata
    have h1 := List.append_cancel_left hdata
    have h2 := List.append_cancel_left h1
    have h3 := List.append_cancel_left h2
    have h4 := List.append_cancel_left h3
    exact toDigits_injective i j h4
  · have hbase : (base_name_safeData "My Report.pdf".data).asString
        = "My_Report" := by decide
    simp only [generate_chunk_ids, List.range_succ, List.range_zero,
      List.map_append, List.map_cons, List.map_nil, List.nil_append,
      List.append_assoc, List.cons_append, List.singleton_append]
    rw [hbase]
    rw [id_assemble "My_Report" "My_Report_" (Nat.repr ts) (Nat.repr 0)
        "_chunk_0" (by decide) (by decide),
      id_assemble "My_Report" "My_Report_" (Nat.repr ts) (Nat.repr 1)
        "_chunk_1" (by decide) (by decide),
      id_assemble "My_Report" "My_Report_" (Nat.repr ts) (Nat.repr 2)
        "_chunk_2" (by decide) (by decide)]

theorem generate_chunk_ids_spec_witness :
    (generate_chunk_ids "report.txt".data 1700000000 2).getD 0 ""
      ≠ (generate_chunk_ids "report.txt".data 1700000000 2).getD 1 "" :=
  (generate_chunk_ids_spec "report.txt".data 1700000000 2).2.2.1 0 1
    (by decide) (by decide) (by decide)

/-- C5: the base name used in the IDs is the filename's stem with every
non-alphanumeric character replaced by an underscore, truncated to at most
50 characters — so it is at most 50 characters long and contains only
alphanumeric characters and underscores; in particular the single ID
generated for `"weird/name!.txt"` contains no `'/'` and no `'!'`. -/
theorem base_name_sanitization (filename : List Char) (ts : Nat) :
    (base_name_safeData filename).length ≤ 50
      ∧ (∀ c ∈ base_name_safeData filename, c.isAlphanum = true ∨ c = '_')
      ∧ (∀ c ∈ ((generate_chunk_ids "weird/name!.txt".data ts 1).getD 0
            "").data,
          c ≠ '/' ∧ c ≠ '!') := by
  refine ⟨?_, ?_, ?_⟩
  · simp only [base_name_safeData, List.length_take]
    exact min_le_left _ _
  · intro c hc
    have hc' := List.mem_of_mem_take hc
    obtain ⟨x, hx, hcx⟩ := List.mem_map.mp hc'
    by_cases hal : x.isAlphanum = true
    · left; rw [← hcx, if_pos hal]; exact hal
    · right; rw [← hcx, if_neg hal]
  · intro c hc
    simp only [generate_chunk_ids] at hc
    rw [getD_map_range "" _ 1 0 (by omega)] at hc
    have hbase : (base_name_safeData "weird/name!.txt".data).asString
        = "name_" := by decide
    rw [hbase] at hc
    simp only [String.data_append, List.append_assoc, List.mem_append] at hc
    rcases hc with hc | hc | hc | hc | hc
    · exact (by decide : ∀ c ∈ "name_".data, c ≠ '/' ∧ c ≠ '!') c hc
    · exact (by decide : ∀ c ∈ "_".data, c ≠ '/' ∧ c ≠ '!') c hc
    · have hd := repr_chars_isDigit ts c hc
      constructor <;> intro hx <;> rw [hx] at hd <;> exact absurd hd (by decide)
    · exact (by decide : ∀ c ∈ "_chunk_".data, c ≠ '/' ∧ c ≠ '!') c hc
    · exact (by decide : ∀ c ∈ (Nat.repr 0).data, c ≠ '/' ∧ c ≠ '!') c hc

theorem base_name_sanitization_witness : ('n' ≠ '/' ∧ 'n' ≠ '!') :=
  (base_name_sanitization "weird/name!.txt".data 7).2.2 'n' (by decide)

/-- JSON-like metadata values, enough structure for the mappings the views
construct and forward. -/
inductive MetaVal : Type
  | str (s : String)
  | num (n : Int)
  | boolean (b : Bool)
  | null
  deriving DecidableEq, Repr

/-- One validated document of the ingest payload (serializers.py lines 4-7):
`id` and `text` are required strings; `metadata` is an optional key-value
mapping — `none` models an absent/`None` value, `some []` an empty `{}`. -/
structure IngestDoc : Type where
  id : String
  text : String
  metadata : Option (List (String × MetaVal))
  deriving DecidableEq

/-- The per-document metadata preparation of `IngestView.post` (views.py
lines 54-67): a falsy metadata (`None` or `{}`) is replaced by the non-empty
default `{"source": "unknown"}`; any non-empty mapping is kept unchanged. -/
def prepare_metadata (m : Option (List (String × MetaVal))) :
    List (String × MetaVal) :=
  match m with
  | none => [("source", MetaVal.str "unknown")]
  | some l => if l = [] then [("source", MetaVal.str "unknown")] else l

/-- The accumulation loop of `IngestView.post` (views.py lines 47-67): one
pass over the documents, appending to `ids`, `texts` and
`metadatas_prepared` in order. -/
def ingest_prepare_loop :
    List IngestDoc
      → List String × List String × List (List (String × MetaVal))
      → List String × List String × List (List (String × MetaVal))
  | [], acc => acc
  | d :: ds, (ids, texts, metas) =>
    ingest_prepare_loop ds
      (ids ++ [d.id], texts ++ [d.text],
        metas ++ [prepare_metadata d.metadata])

/-- The three index-aligned sequences `IngestView.post` passes to the vector
store's `add` (views.py lines 84-89). -/
def ingest_prepare (docs : List IngestDoc) :
    List String × List String × List (List (String × MetaVal)) :=
  ingest_prepare_loop docs ([], [], [])

/-- The default document value used only to state positional facts. -/
def dfltDoc : IngestDoc := ⟨"", "", none⟩

theorem ingest_prepare_loop_eq (docs : List IngestDoc) :
    ∀ ids texts metas,
      ingest_prepare_loop docs (ids, texts, metas)
        = (ids ++ docs.map IngestDoc.id,
           texts ++ docs.map IngestDoc.text,
           metas ++ docs.map fun d => prepare_metadata d.metadata) := by
  induction docs with
  | nil => intro ids texts metas; simp [ingest_prepare_loop]
  | cons d ds ih =>
    intro ids texts metas
    simp only [ingest_prepare_loop, List.map_cons]
    rw [ih]
    simp

theorem ingest_prepare_eq (docs : List IngestDoc) :
    ingest_prepare docs
      = (docs.map IngestDoc.id, docs.map IngestDoc.text,
         docs.map fun d => prepare_metadata d.metadata) := by
  rw [ingest_prepare, ingest_prepare_loop_eq]
  simp

theorem getD_map {α β : Type} (dflt : β) (f : α → β) (l : List α) (d0 : α)
    (i : Nat) (hi : i < l.length) :
    (l.map f).getD i dflt = f (l.getD i d0) := by
  rw [List.getD_eq_getElem?_getD, List.getElem?_map,
    List.getD_eq_getElem?_getD, List.getElem?_eq_getElem hi]
  rfl

/-- C8: the `ids`, `documents` and `metadatas` sequences passed to `add` by
the ingest view are index-aligned, one entry per validated document in
order; a document with absent or empty metadata gets exactly
`{"source": "unknown"}`, a document with non-empty metadata keeps it
unchanged, and hence every inserted metadata mapping is non-empty. -/
theorem ingest_prepare_spec (docs : List IngestDoc) :
    (ingest_prepare docs).1.length = docs.length
      ∧ (ingest_prepare docs).2.1.length = docs.length
      ∧ (ingest_prepare docs).2.2.length = docs.length
      ∧ (∀ i, i < docs.length →
          (ingest_prepare docs).1.getD i "" = (docs.getD i dfltDoc).id
          ∧ (ingest_prepare docs).2.1.getD i "" = (docs.getD i dfltDoc).text
          ∧ (((docs.getD i dfltDoc).metadata = none
                ∨ (docs.getD i dfltDoc).metadata = some []) →
              (ingest_prepare docs).2.2.getD i []
                = [("source", MetaVal.str "unknown")])
          ∧ (∀ m, (docs.getD i dfltDoc).metadata = some m → m ≠ [] →
              (ingest_prepare docs).2.2.getD i [] = m)
          ∧ (ingest_prepare docs).2.2.getD i [] ≠ []) := by
  rw [ingest_prepare_eq]
  refine ⟨by simp, by simp, by simp, ?_⟩
  intro i hi
  rw [getD_map "" IngestDoc.id docs dfltDoc i hi,
    getD_map "" IngestDoc.text docs dfltDoc i hi,
    getD_map [] (fun d => prepare_metadata d.metadata) docs dfltDoc i hi]
  refine ⟨rfl, rfl, ?_, ?_, ?_⟩
  · intro hcase
    rcases hcase with hc | hc <;> rw [hc] <;> simp [prepare_metadata]
  · intro m hm hmne
    rw [hm]
    simp [prepare_metadata, hmne]
  · rcases hmeta : (docs.getD i dfltDoc).metadata with _ | l
    · simp [prepare_metadata]
    · rcases hl : l with _ | ⟨x, xs⟩
      · simp [prepare_metadata]
      · simp [prepare_metadata]

theorem ingest_prepare_spec_witness :
    (ingest_prepare [⟨"d1", "hello", none⟩,
        ⟨"d2", "world", some [("lang", MetaVal.str "en")]⟩]).2.2.getD 0 []
      = [("source", MetaVal.str "unknown")] :=
  ((ingest_prepare_spec [⟨"d1", "hello", none⟩,
      ⟨"d2", "world", some [("lang", MetaVal.str "en")]⟩]).2.2.2 0
    (by decide)).2.2.1 (Or.inl rfl)

/-- The metadata list `FileUploadIngestView.post` builds for the chunks of
one uploaded file (views.py lines 329-332):
`{"source": original_filename, "chunk_index": i, "total_chunks": n}` for
`i` in `0 .. n-1`. -/
def upload_metadatas (fn : String) (n : Nat) :
    List (List (String × MetaVal)) :=
  (List.range n).map fun i =>
    [("source", MetaVal.str fn), ("chunk_index", MetaVal.num (Int.ofNat i)),
     ("total_chunks", MetaVal.num (Int.ofNat n))]

/-- C10: in the file-upload view, once chunks have been produced, the
`chunk_ids`, `chunks` and `metadatas` sequences passed to `add` all have the
chunk count as length, and the metadata at position `i` is exactly
`{"source": filename, "chunk_index": i, "total_chunks": n}` — a non-empty
mapping. -/
theorem upload_prepare_spec (text : List Char) (fn : String) (ts fuel : Nat)
    (chunks : List (List Char))
    (h : simple_chunker text 1500 150 fuel = some chunks)
    (hne : chunks ≠ []) :
    (generate_chunk_ids fn.data ts chunks.length).length = chunks.length
      ∧ (upload_metadatas fn chunks.length).length = chunks.length
      ∧ (∀ i, i < chunks.length →
          (upload_metadatas fn chunks.length).getD i []
            = [("source", MetaVal.str fn),
               ("chunk_index", MetaVal.num (Int.ofNat i)),
               ("total_chunks", MetaVal.num (Int.ofNat chunks.length))]
          ∧ (upload_metadatas fn chunks.length).getD i [] ≠ []) := by
  refine ⟨by simp [generate_chunk_ids], by simp [upload_metadatas], ?_⟩
  intro i hi
  constructor
  · simp only [upload_metadatas]
    exact getD_map_range [] _ chunks.length i hi
  · simp only [upload_metadatas]
    rw [getD_map_range [] _ chunks.length i hi]
    simp

theorem upload_prepare_spec_witness :
    (upload_metadatas "notes.txt"
        ((["ab".data] : List (List Char)).length)).getD 0 []
      = [("source", MetaVal.str "notes.txt"),
         ("chunk_index", MetaVal.num (Int.ofNat 0)),
         ("total_chunks",
          MetaVal.num (Int.ofNat (["ab".data] : List (List Char)).length))] :=
  ((upload_prepare_spec "ab".data "notes.txt" 5 1 ["ab".data] (by decide)
    (by decide)).2.2 0 (by decide)).1
